import Mathlib

/-!
Verification of the GCS → ElevenLabs knowledge-base bridge (`src/main.py`).

The Python module is a single cloud function plus helpers:
* `get_elevenlabs_docs` — paginated listing of remote documents into a dict
  `name → id` (page size 100, cursor-following; a non-200 page stops the loop
  and the accumulated dict is returned as-is);
* `upload_file_to_elevenlabs` — the pure part modelled here is the content
  type choice: a fixed extension table consulted on
  `os.path.splitext(blob_name.lower())`, then `mimetypes.guess_type`, then
  the `text/plain` fallback;
* `sync_knowledge_base` — the reconciliation loop over the bucket listing and
  the remote dict, collecting `valid_docs` and `ids_to_delete`, then calling
  the agent update and finally the deletions.

Python dicts are modelled as association lists in insertion order where
inserting an existing key replaces its value in place (`dinsert`); network
effects are modelled by explicit function parameters (`api` for the listing
endpoint, `upload` for the per-file upload outcome), and the unbounded
`while True` listing loop is given explicit fuel, with `none` meaning the
loop has not terminated within that fuel.
-/

namespace GXB

/-- Dictionary lookup, `d.get(k)` / `k in d` on a Python dict modelled as an
association list whose keys are distinct (first match wins). -/
def elLookup : List (String × String) → String → Option String
  | [], _ => none
  | p :: rest, k => if p.1 = k then some p.2 else elLookup rest k

/-- Python dict assignment `d[k] = v`: replaces the value of an existing key
in place, otherwise appends the new binding at the end. -/
def dinsert : List (String × String) → String → String → List (String × String)
  | [], k, v => [(k, v)]
  | p :: rest, k, v => if p.1 = k then (k, v) :: rest else p :: dinsert rest k v

/-- The loop `for doc in data["documents"]: documents[doc["name"]] = doc["id"]`
over one page (`src/main.py` lines 39-40). -/
def insertAll (m : List (String × String)) (docs : List (String × String)) : List (String × String) :=
  docs.foldl (fun acc p => dinsert acc p.1 p.2) m

/-- The value carried by the last binding of a key in a stream of documents
(later bindings win), used to characterise `insertAll`. -/
def lastBind : List (String × String) → String → Option String
  | [], _ => none
  | p :: rest, k =>
    match lastBind rest k with
    | some v => some v
    | none => if p.1 = k then some p.2 else none

/-- One page of the knowledge-base listing endpoint: HTTP status, the
`documents` array (as name–id pairs), `has_more` and `next_cursor`
(`src/main.py` lines 34-44). -/
structure Page where
  status : Nat
  documents : List (String × String)
  has_more : Bool
  next_cursor : Option String
  deriving DecidableEq

/-- The query parameters of one listing request: `page_size` and the optional
`cursor` (`src/main.py` lines 24-26). -/
structure ListRequest where
  page_size : Nat
  cursor : Option String
  deriving DecidableEq

/-- Python truthiness of the `if next_cursor:` guard (line 25): `None` and the
empty string both leave the `cursor` parameter out of the request. -/
def cursorParam : Option String → Option String
  | none => none
  | some c => if c = "" then none else some c

/-- The request issued for loop state `cursor`: always `page_size = 100`,
with the cursor parameter present only when truthy (lines 24-26). -/
def mkReq (cursor : Option String) : ListRequest :=
  ⟨100, cursorParam cursor⟩

/-- The body of the `while True` loop of `get_elevenlabs_docs`
(`src/main.py` lines 23-44), with explicit fuel: `none` means the loop did
not finish within `fuel` iterations.  Besides the accumulated dict the model
returns the list of requests issued, so request counts and parameters can be
stated. -/
def getDocsAux (api : ListRequest → Page) :
    Nat → Option String → List (String × String) → List ListRequest →
    Option (List (String × String) × List ListRequest)
  | 0, _, _, _ => none
  | fuel + 1, cursor, documents, reqs =>
    let req := mkReq cursor
    let resp := api req
    if resp.status = 200 then
      let documents2 := insertAll documents resp.documents
      if resp.has_more then
        getDocsAux api fuel resp.next_cursor documents2 (reqs ++ [req])
      else
        some (documents2, reqs ++ [req])
    else
      some (documents, reqs ++ [req])

/-- `get_elevenlabs_docs` (`src/main.py` lines 17-46): start with no cursor
and an empty dict. -/
def get_elevenlabs_docs (api : ListRequest → Page) (fuel : Nat) :
    Option (List (String × String) × List ListRequest) :=
  getDocsAux api fuel none [] []

/-- The loop-state successor: the `next_cursor` of the page answering the
request issued at state `c` (line 44). -/
def nextCursor (api : ListRequest → Page) (c : Option String) : Option String :=
  (api (mkReq c)).next_cursor

/-- The loop stops at state `c`: the response is non-200 (line 34) or
`has_more` is falsy (line 42). -/
def stopsAt (api : ListRequest → Page) (c : Option String) : Prop :=
  (api (mkReq c)).status ≠ 200 ∨ (api (mkReq c)).has_more = false

instance (api : ListRequest → Page) (c : Option String) : Decidable (stopsAt api c) := by
  unfold stopsAt; infer_instance

/-- Helper for `os.path.splitext`: the characters strictly between the last
separator and the last dot (given reversed) must contain a non-dot character
for the extension to count (CPython `genericpath._splitext`). -/
def hasRealName : List Char → Bool
  | [] => false
  | c :: rest => if c = '/' then false else if c = '.' then hasRealName rest else true

/-- Scan the reversed name for the last dot, failing on a separator first;
`acc` collects the characters after the dot in original order. -/
def findExt : List Char → List Char → Option (List Char)
  | [], _ => none
  | c :: rest, acc =>
    if c = '/' then none
    else if c = '.' then (if hasRealName rest then some ('.' :: acc) else none)
    else findExt rest (c :: acc)

/-- The extension component of `os.path.splitext` (the root component is not
used by the source). -/
def splitextExt (s : String) : String :=
  match findExt s.data.reverse [] with
  | some e => String.mk e
  | none => ""

/-- Python `str.lower()` applied characterwise (the source only feeds it
ASCII object names, where `Char.toLower` agrees with Python). -/
def pyLower (s : String) : String :=
  String.mk (s.data.map Char.toLower)

/-- `ext_mapping` of `upload_file_to_elevenlabs` (`src/main.py` lines 66-73). -/
def ext_mapping : List (String × String) :=
  [(".docx", "application/vnd.openxmlformats-officedocument.wordprocessingml.document"),
   (".pdf", "application/pdf"),
   (".txt", "text/plain"),
   (".epub", "application/epub+zip"),
   (".html", "text/html"),
   (".md", "text/markdown")]

/-- The content-type computation of `upload_file_to_elevenlabs`
(`src/main.py` lines 75-82).  `guess` stands for `mimetypes.guess_type`
(whose second component the source discards); its Python `None` result is
`none` here. -/
def upload_content_type (guess : String → Option String) (blob_name : String) : String :=
  match elLookup ext_mapping (splitextExt (pyLower blob_name)) with
  | some ct => ct
  | none =>
    match guess blob_name with
    | some ct => ct
    | none => "text/plain"

/-- The event type string checked at `src/main.py` line 181. -/
def finalizedEvent : String := "google.cloud.storage.object.v1.finalized"

/-- Outward remote calls issued by `sync_knowledge_base`, in program order:
per-file uploads during the reconciliation loop, the agent-configuration
update, and the per-id deletions. -/
inductive Call where
  | upload (name : String)
  | agent_update
  | delete (doc_id : String)
  deriving DecidableEq

/-- Whether a call is a deletion of a remote document. -/
def isDelete : Call → Bool
  | Call.delete _ => true
  | _ => false

/-- The mutable state built by `sync_knowledge_base`: `valid_docs` holds
(id, name) pairs, `ids_to_delete` the ids marked for deletion, and `calls`
the trace of remote calls issued. -/
structure SyncState where
  valid_docs : List (String × String)
  ids_to_delete : List String
  calls : List Call
  deriving DecidableEq

/-- The first reconciliation loop of `sync_knowledge_base`
(`src/main.py` lines 179-193), iterating over the bucket names in listing
order.  `el` is the remote dict, `trigger` the event's optional object name,
`evt` the event type, and `upload f` the outcome of
`upload_file_to_elevenlabs(bucket_name, f)` (at most one upload per name per
run, so a function of the name is faithful). -/
def processGcs (el : List (String × String)) (trigger : Option String) (evt : String)
    (upload : String → Option String) : List String → SyncState
  | [] => ⟨[], [], []⟩
  | f :: rest =>
    let s := processGcs el trigger evt upload rest
    match elLookup el f with
    | some oldId =>
      if trigger = some f ∧ evt = finalizedEvent then
        match upload f with
        | some newId => ⟨(newId, f) :: s.valid_docs, oldId :: s.ids_to_delete, Call.upload f :: s.calls⟩
        | none => ⟨s.valid_docs, s.ids_to_delete, Call.upload f :: s.calls⟩
      else ⟨(oldId, f) :: s.valid_docs, s.ids_to_delete, s.calls⟩
    | none =>
      match upload f with
      | some newId => ⟨(newId, f) :: s.valid_docs, s.ids_to_delete, Call.upload f :: s.calls⟩
      | none => ⟨s.valid_docs, s.ids_to_delete, Call.upload f :: s.calls⟩

/-- `sync_knowledge_base` (`src/main.py` lines 162-208): the first loop over
the bucket names (the keys of `gcs_map`, distinct by dict construction), the
orphan loop over the remote dict (lines 195-198), then the agent update
(line 201) and the deletions (lines 203-206), recorded in the call trace in
that order. -/
def sync_knowledge_base (gcs : List String) (el : List (String × String))
    (trigger : Option String) (evt : String) (upload : String → Option String) : SyncState :=
  let s := processGcs el trigger evt upload gcs
  let orphans := (el.filter (fun p => decide (p.1 ∉ gcs))).map Prod.snd
  let dels := s.ids_to_delete ++ orphans
  ⟨s.valid_docs, dels, s.calls ++ Call.agent_update :: dels.map Call.delete⟩

/-- A name requires an upload this run: it is new to the remote dict, or it
is the triggering name of a finalize event (the re-upload branch). -/
def requiredUpload (el : List (String × String)) (trigger : Option String) (evt : String)
    (f : String) : Bool :=
  match elLookup el f with
  | some _ => decide (trigger = some f ∧ evt = finalizedEvent)
  | none => true

/-- Closed form of the `valid_docs` contribution of one bucket name. -/
def entryFor (el : List (String × String)) (trigger : Option String) (evt : String)
    (upload : String → Option String) (f : String) : Option (String × String) :=
  match elLookup el f with
  | some oldId =>
    if trigger = some f ∧ evt = finalizedEvent then (upload f).map (fun nid => (nid, f))
    else some (oldId, f)
  | none => (upload f).map (fun nid => (nid, f))

/-- Closed form of the `ids_to_delete` contribution of one bucket name in the
first loop. -/
def delFor (el : List (String × String)) (trigger : Option String) (evt : String)
    (upload : String → Option String) (f : String) : Option String :=
  match elLookup el f with
  | some oldId =>
    if (trigger = some f ∧ evt = finalizedEvent) ∧ (upload f).isSome then some oldId else none
  | none => none

/-! ### Association-list facts -/

theorem elLookup_mem {el : List (String × String)} {k v : String}
    (h : elLookup el k = some v) : (k, v) ∈ el := by
  induction el with
  | nil => simp [elLookup] at h
  | cons p rest ih =>
    simp only [elLookup] at h
    by_cases hp : p.1 = k
    · rw [if_pos hp] at h
      have hv : p.2 = v := Option.some.inj h
      have hpkv : p = (k, v) := by
        cases p
        simp_all
      rw [← hpkv]
      exact List.mem_cons_self _ _
    · rw [if_neg hp] at h
      exact List.mem_cons_of_mem _ (ih h)

theorem elLookup_mem_snd {el : List (String × String)} {k v : String}
    (h : elLookup el k = some v) : v ∈ el.map Prod.snd :=
  List.mem_map_of_mem Prod.snd (elLookup_mem h)

theorem snd_nodup_inj {el : List (String × String)} (h : (el.map Prod.snd).Nodup)
    {a b c : String} (ha : (a, c) ∈ el) (hb : (b, c) ∈ el) : a = b := by
  induction el with
  | nil => cases ha
  | cons p rest ih =>
    simp only [List.map_cons, List.nodup_cons] at h
    rcases List.mem_cons.mp ha with ha1 | ha2 <;> rcases List.mem_cons.mp hb with hb1 | hb2
    · rw [← ha1] at hb1; exact (congrArg Prod.fst hb1).symm
    · exfalso
      apply h.1
      have hc2 : c ∈ rest.map Prod.snd := List.mem_map_of_mem Prod.snd hb2
      rw [← ha1]
      exact hc2
    · exfalso
      apply h.1
      have hc2 : c ∈ rest.map Prod.snd := List.mem_map_of_mem Prod.snd ha2
      rw [← hb1]
      exact hc2
    · exact ih h.2 ha2 hb2

theorem elLookup_dinsert (m : List (String × String)) (k1 v1 k : String) :
    elLookup (dinsert m k1 v1) k = if k1 = k then some v1 else elLookup m k := by
  induction m with
  | nil =>
    by_cases h : k1 = k <;> simp [dinsert, elLookup, h]
  | cons p rest ih =>
    cases p with
    | mk pk pv =>
      by_cases hp : pk = k1
      · subst hp
        by_cases h : pk = k <;> simp [dinsert, elLookup, h]
      · by_cases hk : pk = k
        · have hk1 : ¬k1 = k := fun hcc => hp (hk.trans hcc.symm)
          have hk2 : ¬k = k1 := fun hcc => hp (hk.trans hcc)
          simp [dinsert, elLookup, hp, hk, hk1, hk2]
        · simp only [dinsert, elLookup]
          rw [if_neg (fun hcc : pk = k1 => hp hcc), if_neg hk]
          simp only [elLookup]
          rw [if_neg hk, ih]

theorem elLookup_insertAll (docs : List (String × String)) :
    ∀ (m : List (String × String)) (k : String),
      elLookup (insertAll m docs) k =
        match lastBind docs k with
        | some v => some v
        | none => elLookup m k := by
  induction docs with
  | nil => intro m k; simp [insertAll, lastBind]
  | cons p rest ih =>
    intro m k
    have step : insertAll m (p :: rest) = insertAll (dinsert m p.1 p.2) rest := rfl
    rw [step, ih]
    cases hl : lastBind rest k with
    | some v => simp [lastBind, hl]
    | none =>
      by_cases hp : p.1 = k <;> simp [lastBind, hl, elLookup_dinsert, hp]

theorem dinsert_of_not_mem {m : List (String × String)} {k : String}
    (h : k ∉ m.map Prod.fst) (v : String) : dinsert m k v = m ++ [(k, v)] := by
  induction m with
  | nil => rfl
  | cons p rest ih =>
    simp only [List.map_cons, List.mem_cons, not_or] at h
    have hp : p.1 ≠ k := fun hc => h.1 hc.symm
    simp [dinsert, hp, ih h.2]

theorem insertAll_of_fresh {docs : List (String × String)} :
    ∀ {m : List (String × String)},
      (∀ k ∈ docs.map Prod.fst, k ∉ m.map Prod.fst) → (docs.map Prod.fst).Nodup →
      insertAll m docs = m ++ docs := by
  induction docs with
  | nil => intro m _ _; simp [insertAll]
  | cons p rest ih =>
    intro m hdisj hnd
    simp only [List.map_cons, List.nodup_cons] at hnd
    have step : insertAll m (p :: rest) = insertAll (dinsert m p.1 p.2) rest := rfl
    have hpm : p.1 ∉ m.map Prod.fst := hdisj p.1 (by simp)
    rw [step, dinsert_of_not_mem hpm]
    have hdisj2 : ∀ k ∈ rest.map Prod.fst, k ∉ (m ++ [(p.1, p.2)]).map Prod.fst := by
      intro k hk
      simp only [List.map_append, List.mem_append, List.map_cons, List.map_nil,
        List.mem_singleton, not_or]
      constructor
      · exact hdisj k (by simp only [List.map_cons]; exact List.mem_cons_of_mem _ hk)
      · intro hkp
        exact hnd.1 (hkp ▸ hk)
    rw [ih hdisj2 hnd.2]
    simp

/-! ### Closed form of the first reconciliation loop -/

theorem processGcs_eq (el : List (String × String)) (t : Option String) (e : String)
    (up : String → Option String) (gcs : List String) :
    processGcs el t e up gcs =
      ⟨gcs.filterMap (entryFor el t e up),
       gcs.filterMap (delFor el t e up),
       (gcs.filter (requiredUpload el t e)).map Call.upload⟩ := by
  induction gcs with
  | nil => rfl
  | cons f rest ih =>
    cases h : elLookup el f with
    | some oldId =>
      by_cases hc : t = some f ∧ e = finalizedEvent
      · obtain ⟨ht, he⟩ := hc
        subst ht
        subst he
        cases hu : up f with
        | some nid =>
          simp [processGcs, ih, entryFor, delFor, requiredUpload, h, hu,
            List.filterMap_cons, List.filter_cons]
        | none =>
          simp [processGcs, ih, entryFor, delFor, requiredUpload, h, hu,
            List.filterMap_cons, List.filter_cons]
      · simp [processGcs, ih, entryFor, delFor, requiredUpload, h, hc,
          List.filterMap_cons, List.filter_cons]
    | none =>
      cases hu : up f with
      | some nid =>
        simp [processGcs, ih, entryFor, delFor, requiredUpload, h, hu,
          List.filterMap_cons, List.filter_cons]
      | none =>
        simp [processGcs, ih, entryFor, delFor, requiredUpload, h, hu,
          List.filterMap_cons, List.filter_cons]

theorem entry_snd {el : List (String × String)} {t : Option String} {e : String}
    {up : String → Option String} {f : String} {p : String × String}
    (h : entryFor el t e up f = some p) : p.2 = f := by
  obtain ⟨p1, p2⟩ := p
  cases hl : elLookup el f with
  | some oldId =>
    by_cases hc : t = some f ∧ e = finalizedEvent
    · cases hu : up f with
      | some nid =>
        simp [entryFor, hl, hc, hu] at h
        simp_all
      | none => simp [entryFor, hl, hc, hu] at h
    · simp [entryFor, hl, hc] at h
      simp_all
  | none =>
    cases hu : up f with
    | some nid =>
      simp [entryFor, hl, hu] at h
      simp_all
    | none => simp [entryFor, hl, hu] at h

theorem entry_isSome (el : List (String × String)) (t : Option String) (e : String)
    (up : String → Option String) (f : String) :
    (entryFor el t e up f).isSome = (!(requiredUpload el t e f) || (up f).isSome) := by
  cases hl : elLookup el f with
  | some oldId =>
    by_cases hc : t = some f ∧ e = finalizedEvent
    · cases hu : up f <;> simp [entryFor, requiredUpload, hl, hc, hu]
    · cases hu : up f <;> simp [entryFor, requiredUpload, hl, hc, hu]
  | none =>
    cases hu : up f <;> simp [entryFor, requiredUpload, hl, hu]

theorem sync_valid_eq (gcs : List String) (el : List (String × String)) (t : Option String)
    (e : String) (up : String → Option String) :
    (sync_knowledge_base gcs el t e up).valid_docs = gcs.filterMap (entryFor el t e up) := by
  simp [sync_knowledge_base, processGcs_eq]

theorem sync_dels_eq (gcs : List String) (el : List (String × String)) (t : Option String)
    (e : String) (up : String → Option String) :
    (sync_knowledge_base gcs el t e up).ids_to_delete =
      gcs.filterMap (delFor el t e up) ++ (el.filter (fun p => decide (p.1 ∉ gcs))).map Prod.snd := by
  simp [sync_knowledge_base, processGcs_eq]

theorem sync_calls_eq (gcs : List String) (el : List (String × String)) (t : Option String)
    (e : String) (up : String → Option String) :
    (sync_knowledge_base gcs el t e up).calls =
      ((gcs.filter (requiredUpload el t e)).map Call.upload) ++
        Call.agent_update :: ((sync_knowledge_base gcs el t e up).ids_to_delete).map Call.delete := by
  simp [sync_knowledge_base, processGcs_eq]

theorem validNames_eq (el : List (String × String)) (t : Option String) (e : String)
    (up : String → Option String) (gcs : List String) :
    (gcs.filterMap (entryFor el t e up)).map Prod.snd
      = gcs.filter (fun f => !(requiredUpload el t e f) || (up f).isSome) := by
  induction gcs with
  | nil => rfl
  | cons f rest ih =>
    rw [List.filterMap_cons, List.filter_cons]
    cases he : entryFor el t e up f with
    | some p =>
      have hs : (!(requiredUpload el t e f) || (up f).isSome) = true := by
        rw [← entry_isSome el t e up f, he]
        rfl
      simp [List.map_cons, entry_snd he, ih, hs]
    | none =>
      have hs : (!(requiredUpload el t e f) || (up f).isSome) = false := by
        rw [← entry_isSome el t e up f, he]
        rfl
      simp [ih, hs]

theorem count_filter_nodup (l : List String) (hl : l.Nodup) (p : String → Bool) (a : String) :
    (l.filter p).count a = if a ∈ l ∧ p a = true then 1 else 0 := by
  induction l with
  | nil => simp
  | cons x xs ih =>
    rw [List.nodup_cons] at hl
    have ihx := ih hl.2
    rw [List.filter_cons]
    by_cases hax : a = x
    · subst hax
      have hna : a ∉ xs := hl.1
      cases hp : p a with
      | true =>
        simp [hp, List.count_cons, ihx, hna]
      | false =>
        simp [hp, ihx, hna]
    · cases hp : p x with
      | true =>
        simp [hp, List.count_cons, ihx, hax, Ne.symm hax]
      | false =>
        simp [hp, ihx, hax]

theorem valid_entry_unique {gcs : List String} {el : List (String × String)} {t : Option String}
    {e : String} {up : String → Option String} {i name : String}
    (h : (i, name) ∈ (sync_knowledge_base gcs el t e up).valid_docs) :
    name ∈ gcs ∧ entryFor el t e up name = some (i, name) := by
  rw [sync_valid_eq] at h
  obtain ⟨f, hf, he⟩ := List.mem_filterMap.mp h
  have h2 : name = f := entry_snd he
  rw [← h2] at hf he
  exact ⟨hf, he⟩

theorem entryFor_id_cases {el : List (String × String)} {t : Option String} {e : String}
    {up : String → Option String} {f i n : String}
    (h : entryFor el t e up f = some (i, n)) :
    n = f ∧ ((elLookup el f = some i ∧ ¬(t = some f ∧ e = finalizedEvent)) ∨ up f = some i) := by
  refine ⟨entry_snd h, ?_⟩
  cases hl : elLookup el f with
  | some oldId =>
    by_cases hc : t = some f ∧ e = finalizedEvent
    · right
      cases hu : up f with
      | some nid =>
        simp [entryFor, hl, hc, hu] at h
        rw [h.1]
      | none => simp [entryFor, hl, hc, hu] at h
    · left
      simp [entryFor, hl, hc] at h
      exact ⟨by rw [h.1], hc⟩
  | none =>
    right
    cases hu : up f with
    | some nid =>
      simp [entryFor, hl, hu] at h
      rw [h.1]
    | none => simp [entryFor, hl, hu] at h

theorem delFor_some {el : List (String × String)} {t : Option String} {e : String}
    {up : String → Option String} {f d : String}
    (h : delFor el t e up f = some d) :
    elLookup el f = some d ∧ (t = some f ∧ e = finalizedEvent) ∧ (up f).isSome = true := by
  cases hl : elLookup el f with
  | some oldId =>
    by_cases hc : (t = some f ∧ e = finalizedEvent) ∧ (up f).isSome = true
    · simp only [delFor, hl] at h
      rw [if_pos (by exact ⟨hc.1, hc.2⟩)] at h
      exact ⟨h, hc.1, hc.2⟩
    · simp only [delFor, hl] at h
      rw [if_neg (by simpa using hc)] at h
      cases h
  | none => simp [delFor, hl] at h

theorem upload_mem_calls {gcs : List String} {el : List (String × String)} {t : Option String}
    {e : String} {up : String → Option String} {n : String} :
    Call.upload n ∈ (sync_knowledge_base gcs el t e up).calls ↔
      n ∈ gcs ∧ requiredUpload el t e n = true := by
  rw [sync_calls_eq]
  simp [List.mem_filter, and_comm]

/-- Claim C1: for every bucket inventory and remote-document inventory, the
valid set accumulated by the run has exactly one (id, name) entry per bucket
name, except names whose required upload (new file, or triggered re-upload)
returned no id, and no name has two entries.  The bucket names are the keys
of `gcs_map`, hence pairwise distinct. -/
theorem sync_valid_one_entry_per_bucket_name (gcs : List String) (el : List (String × String))
    (trigger : Option String) (evt : String) (up : String → Option String)
    (hg : gcs.Nodup) :
    (∀ name : String,
      (((sync_knowledge_base gcs el trigger evt up).valid_docs.map Prod.snd).count name)
        = if name ∈ gcs ∧ (requiredUpload el trigger evt name = true → (up name).isSome = true)
          then 1 else 0)
    ∧ ((sync_knowledge_base gcs el trigger evt up).valid_docs.map Prod.snd).Nodup := by
  rw [sync_valid_eq, validNames_eq]
  constructor
  · intro name
    rw [count_filter_nodup gcs hg _ name]
    have hcond : ((!(requiredUpload el trigger evt name) || (up name).isSome) = true)
        ↔ (requiredUpload el trigger evt name = true → (up name).isSome = true) := by
      cases requiredUpload el trigger evt name <;> cases (up name).isSome <;> simp
    exact if_congr (and_congr Iff.rfl hcond) rfl rfl
  · exact List.Nodup.filter _ hg

/-- Concrete run for C1: a new file `b.pdf` whose upload succeeds gets one
entry, the untouched `a.txt` keeps one entry, and the name column is
duplicate-free. -/
theorem sync_valid_one_entry_per_bucket_name_witness :
    ((((sync_knowledge_base (["a.txt", "b.pdf"]) ([("a.txt", "id1")]) none ("ev")
        (fun _ => some ("id2"))).valid_docs.map Prod.snd).count ("b.pdf")) = 1)
    ∧ ((sync_knowledge_base (["a.txt", "b.pdf"]) ([("a.txt", "id1")]) none ("ev")
        (fun _ => some ("id2"))).valid_docs.map Prod.snd).Nodup := by
  have h := sync_valid_one_entry_per_bucket_name (["a.txt", "b.pdf"]) ([("a.txt", "id1")])
    none ("ev") (fun _ => some ("id2")) (by decide)
  refine ⟨?_, h.2⟩
  rw [h.1 ("b.pdf")]
  decide

/-- Claim C2: when the triggering object name is present in both inventories,
the event is the finalize event, and the re-upload succeeds, exactly one new
id is recorded for that name, the old id (from the remote directory) goes to
the deletion set, and the old and new ids are never both present in the
final valid set.  The hypotheses `hids` (remote ids are pairwise distinct)
and `hfresh` (an id returned by an upload is a fresh id, not one already in
the remote directory) reflect that the remote service assigns opaque unique
identifiers. -/
theorem sync_trigger_reupload_replaces (gcs : List String) (el : List (String × String))
    (trigger : Option String) (evt : String) (up : String → Option String)
    (name oldId newId : String)
    (hg : gcs.Nodup)
    (hids : (el.map Prod.snd).Nodup)
    (hfresh : ∀ f i, up f = some i → i ∉ el.map Prod.snd)
    (hmem : name ∈ gcs)
    (hname_el : elLookup el name = some oldId)
    (htr : trigger = some name)
    (hevt : evt = finalizedEvent)
    (hup : up name = some newId) :
    ((newId, name) ∈ (sync_knowledge_base gcs el trigger evt up).valid_docs)
    ∧ (∀ i, (i, name) ∈ (sync_knowledge_base gcs el trigger evt up).valid_docs → i = newId)
    ∧ (((sync_knowledge_base gcs el trigger evt up).valid_docs.map Prod.snd).count name = 1)
    ∧ oldId ∈ (sync_knowledge_base gcs el trigger evt up).ids_to_delete
    ∧ oldId ∉ (sync_knowledge_base gcs el trigger evt up).valid_docs.map Prod.fst := by
  subst htr
  subst hevt
  have hentry : entryFor el (some name) finalizedEvent up name = some (newId, name) := by
    simp [entryFor, hname_el, hup]
  refine ⟨?_, ?_, ?_, ?_, ?_⟩
  · rw [sync_valid_eq]
    exact List.mem_filterMap.mpr ⟨name, hmem, hentry⟩
  · intro i hi
    have h2 := (valid_entry_unique hi).2
    rw [hentry] at h2
    exact (congrArg Prod.fst (Option.some.inj h2)).symm
  · rw [sync_valid_eq, validNames_eq, count_filter_nodup gcs hg]
    rw [if_pos ⟨hmem, by simp [requiredUpload, hname_el, hup]⟩]
  · rw [sync_dels_eq]
    apply List.mem_append.mpr
    left
    exact List.mem_filterMap.mpr ⟨name, hmem, by simp [delFor, hname_el, hup]⟩
  · intro hin
    rw [sync_valid_eq] at hin
    obtain ⟨p, hp, hfst⟩ := List.mem_map.mp hin
    obtain ⟨p1, p2⟩ := p
    simp only at hfst
    have hp2 : (p1, p2) ∈ (sync_knowledge_base gcs el (some name) finalizedEvent up).valid_docs := by
      rw [sync_valid_eq]
      exact hp
    have hvu := valid_entry_unique hp2
    rcases (entryFor_id_cases hvu.2).2 with ⟨hlk, hnc⟩ | hupf
    · rw [hfst] at hlk
      have hm1 : (p2, oldId) ∈ el := elLookup_mem hlk
      have hm2 : (name, oldId) ∈ el := elLookup_mem hname_el
      have heq : p2 = name := snd_nodup_inj hids hm1 hm2
      subst heq
      exact hnc ⟨rfl, rfl⟩
    · rw [hfst] at hupf
      exact hfresh p2 oldId hupf (elLookup_mem_snd hname_el)

/-- Concrete run for C2: trigger `a.txt` with the finalize event over
bucket `{a.txt}` and remote `{a.txt: id1}`; the fresh upload id `id3`
replaces `id1`, which is marked for deletion. -/
theorem sync_trigger_reupload_replaces_witness :
    (("id3", "a.txt") ∈ (sync_knowledge_base (["a.txt"]) ([("a.txt", "id1")]) (some ("a.txt"))
        finalizedEvent (fun _ => some ("id3"))).valid_docs)
    ∧ ("id1" ∈ (sync_knowledge_base (["a.txt"]) ([("a.txt", "id1")]) (some ("a.txt"))
        finalizedEvent (fun _ => some ("id3"))).ids_to_delete)
    ∧ ("id1" ∉ (sync_knowledge_base (["a.txt"]) ([("a.txt", "id1")]) (some ("a.txt"))
        finalizedEvent (fun _ => some ("id3"))).valid_docs.map Prod.fst) := by
  have h := sync_trigger_reupload_replaces (["a.txt"]) ([("a.txt", "id1")]) (some ("a.txt"))
    finalizedEvent (fun _ => some ("id3")) ("a.txt") ("id1") ("id3")
    (by decide) (by decide)
    (by
      intro f i hfi
      have hi : i = ("id3") := (Option.some.inj hfi).symm
      subst hi
      decide)
    (by decide) (by decide) rfl rfl rfl
  exact ⟨h.1, h.2.2.2.1, h.2.2.2.2⟩

/-- Claim C3: a name present in both inventories that is not the trigger of
a finalize event keeps exactly its prior id from the remote directory, and
no upload is performed for it. -/
theorem sync_untouched_keeps_prior_id (gcs : List String) (el : List (String × String))
    (trigger : Option String) (evt : String) (up : String → Option String)
    (name oldId : String)
    (hg : gcs.Nodup)
    (hmem : name ∈ gcs)
    (hname_el : elLookup el name = some oldId)
    (hnc : ¬(trigger = some name ∧ evt = finalizedEvent)) :
    ((oldId, name) ∈ (sync_knowledge_base gcs el trigger evt up).valid_docs)
    ∧ (∀ i, (i, name) ∈ (sync_knowledge_base gcs el trigger evt up).valid_docs → i = oldId)
    ∧ (((sync_knowledge_base gcs el trigger evt up).valid_docs.map Prod.snd).count name = 1)
    ∧ Call.upload name ∉ (sync_knowledge_base gcs el trigger evt up).calls := by
  have hentry : entryFor el trigger evt up name = some (oldId, name) := by
    simp [entryFor, hname_el, hnc]
  refine ⟨?_, ?_, ?_, ?_⟩
  · rw [sync_valid_eq]
    exact List.mem_filterMap.mpr ⟨name, hmem, hentry⟩
  · intro i hi
    have h2 := (valid_entry_unique hi).2
    rw [hentry] at h2
    exact (congrArg Prod.fst (Option.some.inj h2)).symm
  · rw [sync_valid_eq, validNames_eq, count_filter_nodup gcs hg]
    rw [if_pos ⟨hmem, by simp [requiredUpload, hname_el, hnc]⟩]
  · intro hin
    have hr := (upload_mem_calls.mp hin).2
    rw [requiredUpload, hname_el] at hr
    exact hnc (of_decide_eq_true hr)

/-- Concrete run for C3: `a.txt` already known remotely and no trigger; its
entry keeps `id1` and no upload call is made for it. -/
theorem sync_untouched_keeps_prior_id_witness :
    (("id1", "a.txt") ∈ (sync_knowledge_base (["a.txt"]) ([("a.txt", "id1")]) none ("ev")
        (fun _ => some ("zz"))).valid_docs)
    ∧ (Call.upload ("a.txt") ∉ (sync_knowledge_base (["a.txt"]) ([("a.txt", "id1")]) none ("ev")
        (fun _ => some ("zz"))).calls) := by
  have h := sync_untouched_keeps_prior_id (["a.txt"]) ([("a.txt", "id1")]) none ("ev")
    (fun _ => some ("zz")) ("a.txt") ("id1") (by decide) (by decide) (by decide) (by decide)
  exact ⟨h.1, h.2.2.2⟩

/-- Claim C4: a name present in the remote directory but absent from the
bucket has its id placed in the deletion set, and no valid entry carries
that name. -/
theorem sync_orphan_deleted (gcs : List String) (el : List (String × String))
    (trigger : Option String) (evt : String) (up : String → Option String)
    (name docId : String)
    (hpair : (name, docId) ∈ el)
    (hnot : name ∉ gcs) :
    docId ∈ (sync_knowledge_base gcs el trigger evt up).ids_to_delete
    ∧ ∀ i, (i, name) ∉ (sync_knowledge_base gcs el trigger evt up).valid_docs := by
  constructor
  · rw [sync_dels_eq]
    apply List.mem_append.mpr
    right
    exact List.mem_map.mpr ⟨(name, docId), List.mem_filter.mpr ⟨hpair, by simpa using hnot⟩, rfl⟩
  · intro i hi
    exact hnot (valid_entry_unique hi).1

/-- Concrete run for C4: `b.pdf` was removed from the bucket; `id2` is
marked for deletion and no valid entry is named `b.pdf`. -/
theorem sync_orphan_deleted_witness :
    ("id2" ∈ (sync_knowledge_base (["a.txt"]) ([("a.txt", "id1"), ("b.pdf", "id2")]) none ("ev")
        (fun _ => none)).ids_to_delete)
    ∧ (("id2", "b.pdf") ∉ (sync_knowledge_base (["a.txt"]) ([("a.txt", "id1"), ("b.pdf", "id2")])
        none ("ev") (fun _ => none)).valid_docs) := by
  have h := sync_orphan_deleted (["a.txt"]) ([("a.txt", "id1"), ("b.pdf", "id2")]) none ("ev")
    (fun _ => none) ("b.pdf") ("id2") (by decide) (by decide)
  exact ⟨h.1, h.2 ("id2")⟩

/-- Claim C6: when the triggered re-upload of an existing name fails,
nothing changes for that name: the old id is not added to the deletion set,
and the name is excluded from the valid set passed to the agent update.
`hids` (remote ids pairwise distinct) reflects the remote service's opaque
unique identifiers. -/
theorem sync_failed_reupload_no_change (gcs : List String) (el : List (String × String))
    (trigger : Option String) (evt : String) (up : String → Option String)
    (name oldId : String)
    (hids : (el.map Prod.snd).Nodup)
    (hmem : name ∈ gcs)
    (hname_el : elLookup el name = some oldId)
    (htr : trigger = some name)
    (hevt : evt = finalizedEvent)
    (hup : up name = none) :
    oldId ∉ (sync_knowledge_base gcs el trigger evt up).ids_to_delete
    ∧ ∀ i, (i, name) ∉ (sync_knowledge_base gcs el trigger evt up).valid_docs := by
  subst htr
  subst hevt
  constructor
  · intro hin
    rw [sync_dels_eq] at hin
    rcases List.mem_append.mp hin with h1 | h2
    · obtain ⟨f, _, hd⟩ := List.mem_filterMap.mp h1
      obtain ⟨_, hc, hsome⟩ := delFor_some hd
      have hnf : name = f := Option.some.inj hc.1
      rw [← hnf, hup] at hsome
      simp at hsome
    · obtain ⟨p, hp, hsnd⟩ := List.mem_map.mp h2
      obtain ⟨p1, p2⟩ := p
      simp only at hsnd
      have hpel := (List.mem_filter.mp hp).1
      have hpg : p1 ∉ gcs := by simpa using (List.mem_filter.mp hp).2
      rw [hsnd] at hpel
      have hm2 : (name, oldId) ∈ el := elLookup_mem hname_el
      have heq : p1 = name := snd_nodup_inj hids hpel hm2
      rw [heq] at hpg
      exact hpg hmem
  · intro i hi
    have h2 := (valid_entry_unique hi).2
    simp [entryFor, hname_el, hup] at h2

/-- Concrete run for C6: the triggered re-upload of `a.txt` fails; `id1`
stays out of the deletion set and `a.txt` is absent from the valid set. -/
theorem sync_failed_reupload_no_change_witness :
    ("id1" ∉ (sync_knowledge_base (["a.txt"]) ([("a.txt", "id1")]) (some ("a.txt"))
        finalizedEvent (fun _ => none)).ids_to_delete)
    ∧ (("id1", "a.txt") ∉ (sync_knowledge_base (["a.txt"]) ([("a.txt", "id1")]) (some ("a.txt"))
        finalizedEvent (fun _ => none)).valid_docs) := by
  have h := sync_failed_reupload_no_change (["a.txt"]) ([("a.txt", "id1")]) (some ("a.txt"))
    finalizedEvent (fun _ => none) ("a.txt") ("id1")
    (by decide) (by decide) (by decide) rfl rfl rfl
  exact ⟨h.1, h.2 ("id1")⟩

theorem calls_split (gcs : List String) (el : List (String × String)) (t : Option String)
    (e : String) (up : String → Option String) :
    (sync_knowledge_base gcs el t e up).calls =
      (((gcs.filter (requiredUpload el t e)).map Call.upload) ++ [Call.agent_update]) ++
        ((sync_knowledge_base gcs el t e up).ids_to_delete).map Call.delete := by
  rw [sync_calls_eq]
  simp

theorem before_after_split {α : Type} (p : α → Bool) (l1 l2 : List α)
    (h1 : ∀ c ∈ l1, p c = false) (h2 : ∀ c ∈ l2, p c = true)
    (i j : Fin (l1 ++ l2).length)
    (hi : p ((l1 ++ l2).get i) = false) (hj : p ((l1 ++ l2).get j) = true) :
    (i : Nat) < (j : Nat) := by
  have hjlen : ¬(j : Nat) < l1.length := by
    intro hlt
    have hget : (l1 ++ l2).get j = l1[(j : Nat)] := by
      rw [List.get_eq_getElem]
      exact List.getElem_append_left hlt
    rw [hget, h1 _ (List.getElem_mem hlt)] at hj
    cases hj
  have hilen : (i : Nat) < l1.length := by
    by_contra hcon
    push_neg at hcon
    have hb : (i : Nat) - l1.length < l2.length := by
      have h3 := i.isLt
      have h4 : (l1 ++ l2).length = l1.length + l2.length := List.length_append l1 l2
      omega
    have hget : (l1 ++ l2).get i = l2[(i : Nat) - l1.length] := by
      rw [List.get_eq_getElem]
      exact List.getElem_append_right hcon
    rw [hget, h2 _ (List.getElem_mem hb)] at hi
    cases hi
  omega

/-- Claim C5: the agent-configuration update appears in the run's call
trace, and every non-deletion call (all uploads and the update) comes
strictly before every deletion call: no deletion of a remote document ever
precedes the agent update. -/
theorem sync_deletes_after_update (gcs : List String) (el : List (String × String))
    (trigger : Option String) (evt : String) (up : String → Option String) :
    Call.agent_update ∈ (sync_knowledge_base gcs el trigger evt up).calls
    ∧ ∀ i j : Fin (sync_knowledge_base gcs el trigger evt up).calls.length,
        isDelete ((sync_knowledge_base gcs el trigger evt up).calls.get i) = false →
        isDelete ((sync_knowledge_base gcs el trigger evt up).calls.get j) = true →
        (i : Nat) < (j : Nat) := by
  constructor
  · rw [sync_calls_eq]
    exact List.mem_append.mpr (Or.inr (List.mem_cons_self _ _))
  · rw [calls_split gcs el trigger evt up]
    intro i j hi hj
    refine before_after_split isDelete _ _ ?_ ?_ i j hi hj
    · intro c hc
      rcases List.mem_append.mp hc with hcu | hcb
      · obtain ⟨f, _, rfl⟩ := List.mem_map.mp hcu
        rfl
      · rw [List.mem_singleton] at hcb
        subst hcb
        rfl
    · intro c hc
      obtain ⟨d, _, rfl⟩ := List.mem_map.mp hc
      rfl

/-- Concrete run for C5: with one orphaned remote document the trace is
`[agent_update, delete id2]`; the non-delete at index 0 precedes the delete
at index 1. -/
theorem sync_deletes_after_update_witness :
    Call.agent_update ∈ (sync_knowledge_base (["a.txt"]) ([("a.txt", "id1"), ("b.txt", "id2")])
      none ("ev") (fun _ => none)).calls
    ∧ (0 : Nat) < 1 := by
  have h := sync_deletes_after_update (["a.txt"]) ([("a.txt", "id1"), ("b.txt", "id2")])
    none ("ev") (fun _ => none)
  exact ⟨h.1, h.2 ⟨0, by decide⟩ ⟨1, by decide⟩ (by decide) (by decide)⟩

/-! ### Pagination loop facts -/

theorem getDocsAux_stop_non200 (api : ListRequest → Page) (fuel : Nat) (c : Option String)
    (acc : List (String × String)) (reqs : List ListRequest)
    (h : (api (mkReq c)).status ≠ 200) :
    getDocsAux api (fuel + 1) c acc reqs = some (acc, reqs ++ [mkReq c]) := by
  simp [getDocsAux, h]

theorem getDocsAux_step_more (api : ListRequest → Page) (fuel : Nat) (c : Option String)
    (acc : List (String × String)) (reqs : List ListRequest)
    (h200 : (api (mkReq c)).status = 200) (hmore : (api (mkReq c)).has_more = true) :
    getDocsAux api (fuel + 1) c acc reqs =
      getDocsAux api fuel (api (mkReq c)).next_cursor (insertAll acc (api (mkReq c)).documents)
        (reqs ++ [mkReq c]) := by
  simp [getDocsAux, h200, hmore]

theorem getDocsAux_step_done (api : ListRequest → Page) (fuel : Nat) (c : Option String)
    (acc : List (String × String)) (reqs : List ListRequest)
    (h200 : (api (mkReq c)).status = 200) (hmore : (api (mkReq c)).has_more = false) :
    getDocsAux api (fuel + 1) c acc reqs =
      some (insertAll acc (api (mkReq c)).documents, reqs ++ [mkReq c]) := by
  simp [getDocsAux, h200, hmore]

theorem reqs100_append {reqs : List ListRequest} {c : Option String}
    (h : ∀ r ∈ reqs, r.page_size = 100) :
    ∀ r ∈ reqs ++ [mkReq c], r.page_size = 100 := by
  intro r hr
  rcases List.mem_append.mp hr with h1 | h1
  · exact h r h1
  · rw [List.mem_singleton] at h1
    subst h1
    rfl

theorem getDocsAux_reqs100 (api : ListRequest → Page) :
    ∀ (fuel : Nat) (c : Option String) (acc : List (String × String)) (reqs : List ListRequest)
      (res : List (String × String) × List ListRequest),
      (∀ r ∈ reqs, r.page_size = 100) → getDocsAux api fuel c acc reqs = some res →
      ∀ r ∈ res.2, r.page_size = 100 := by
  intro fuel
  induction fuel with
  | zero =>
    intro c acc reqs res hreqs hres
    simp [getDocsAux] at hres
  | succ n ih =>
    intro c acc reqs res hreqs hres
    by_cases hst : (api (mkReq c)).status = 200
    · by_cases hm : (api (mkReq c)).has_more = true
      · rw [getDocsAux_step_more api n c acc reqs hst hm] at hres
        exact ih _ _ _ _ (reqs100_append hreqs) hres
      · have hmf : (api (mkReq c)).has_more = false := by
          cases hx : (api (mkReq c)).has_more
          · rfl
          · exact absurd hx hm
        rw [getDocsAux_step_done api n c acc reqs hst hmf] at hres
        obtain rfl := Option.some.inj hres
        exact reqs100_append hreqs
    · rw [getDocsAux_stop_non200 api n c acc reqs hst] at hres
      obtain rfl := Option.some.inj hres
      exact reqs100_append hreqs

/-- Claim C7: `get_elevenlabs_docs` requests pages of fixed size 100 with a
cursor; a non-200 page response stops the loop and returns the accumulated
mapping as a normal partial result; and a 3-page listing (`has_more` true on
the first two pages, false on the third) yields the merged mapping of all
entries with exactly 3 page requests. -/
theorem listing_pagination (api : ListRequest → Page) (docs1 docs2 docs3 : List (String × String))
    (h1 : api ⟨100, none⟩ = ⟨200, docs1, true, some ("c1")⟩)
    (h2 : api ⟨100, some ("c1")⟩ = ⟨200, docs2, true, some ("c2")⟩)
    (h3 : api ⟨100, some ("c2")⟩ = ⟨200, docs3, false, none⟩)
    (hnd : ((docs1 ++ docs2 ++ docs3).map Prod.fst).Nodup) :
    (∀ fuel res, get_elevenlabs_docs api fuel = some res → ∀ r ∈ res.2, r.page_size = 100)
    ∧ (∀ fuel c acc reqs, (api (mkReq c)).status ≠ 200 →
        getDocsAux api (fuel + 1) c acc reqs = some (acc, reqs ++ [mkReq c]))
    ∧ get_elevenlabs_docs api 3 =
        some (docs1 ++ docs2 ++ docs3,
          [⟨100, none⟩, ⟨100, some ("c1")⟩, ⟨100, some ("c2")⟩]) := by
  have e1 : api (mkReq none) = ⟨200, docs1, true, some ("c1")⟩ := h1
  have hc1 : mkReq (some ("c1")) = ⟨100, some ("c1")⟩ := by decide
  have hc2 : mkReq (some ("c2")) = ⟨100, some ("c2")⟩ := by decide
  have e2 : api (mkReq (some ("c1"))) = ⟨200, docs2, true, some ("c2")⟩ := by
    rw [hc1]
    exact h2
  have e3 : api (mkReq (some ("c2"))) = ⟨200, docs3, false, none⟩ := by
    rw [hc2]
    exact h3
  rw [List.map_append, List.map_append] at hnd
  obtain ⟨hnd12, hnd3, hdisj123⟩ := List.nodup_append.mp hnd
  obtain ⟨hnd1, hnd2, hdisj12⟩ := List.nodup_append.mp hnd12
  have hA : insertAll [] docs1 = docs1 := by
    rw [insertAll_of_fresh (by simp) hnd1]
    simp
  have hB : insertAll docs1 docs2 = docs1 ++ docs2 :=
    insertAll_of_fresh (fun k hk2 hk1 => hdisj12 hk1 hk2) hnd2
  have hdisj3 : ∀ k ∈ docs3.map Prod.fst, k ∉ (docs1 ++ docs2).map Prod.fst := by
    intro k hk3 hk12
    rw [List.map_append] at hk12
    exact hdisj123 hk12 hk3
  have hC : insertAll (docs1 ++ docs2) docs3 = docs1 ++ docs2 ++ docs3 :=
    insertAll_of_fresh hdisj3 hnd3
  refine ⟨?_, ?_, ?_⟩
  · intro fuel res hres
    exact getDocsAux_reqs100 api fuel none [] [] res (by simp) hres
  · intro fuel c acc reqs h
    exact getDocsAux_stop_non200 api fuel c acc reqs h
  · have t1 : getDocsAux api 3 none [] [] = getDocsAux api 2 (some ("c1")) docs1 [mkReq none] := by
      have t := getDocsAux_step_more api 2 none [] [] (by rw [e1]) (by rw [e1])
      rw [e1] at t
      simpa [hA] using t
    have t2 : getDocsAux api 2 (some ("c1")) docs1 [mkReq none] =
        getDocsAux api 1 (some ("c2")) (docs1 ++ docs2) [mkReq none, mkReq (some ("c1"))] := by
      have t := getDocsAux_step_more api 1 (some ("c1")) docs1 [mkReq none]
        (by rw [e2]) (by rw [e2])
      rw [e2] at t
      simpa [hB] using t
    have t3 : getDocsAux api 1 (some ("c2")) (docs1 ++ docs2) [mkReq none, mkReq (some ("c1"))] =
        some (docs1 ++ docs2 ++ docs3,
          [mkReq none, mkReq (some ("c1")), mkReq (some ("c2"))]) := by
      have t := getDocsAux_step_done api 0 (some ("c2")) (docs1 ++ docs2)
        [mkReq none, mkReq (some ("c1"))] (by rw [e3]) (by rw [e3])
      rw [e3] at t
      simpa [hC] using t
    rw [show get_elevenlabs_docs api 3 = getDocsAux api 3 none [] [] from rfl, t1, t2, t3,
      hc1, hc2]
    rfl

/-- Concrete 3-page listing for C7 with one document per page. -/
theorem listing_pagination_witness :
    get_elevenlabs_docs
        (fun r =>
          if r.cursor = none then ⟨200, [("a", "1")], true, some ("c1")⟩
          else if r.cursor = some ("c1") then ⟨200, [("b", "2")], true, some ("c2")⟩
          else ⟨200, [("c", "3")], false, none⟩)
        3 =
      some ([("a", "1"), ("b", "2"), ("c", "3")],
        [⟨100, none⟩, ⟨100, some ("c1")⟩, ⟨100, some ("c2")⟩]) := by
  have h := listing_pagination
    (fun r =>
      if r.cursor = none then ⟨200, [("a", "1")], true, some ("c1")⟩
      else if r.cursor = some ("c1") then ⟨200, [("b", "2")], true, some ("c2")⟩
      else ⟨200, [("c", "3")], false, none⟩)
    [("a", "1")] [("b", "2")] [("c", "3")] (by decide) (by decide) (by decide) (by decide)
  exact h.2.2

/-- Claim C9: duplicate display names in the listed documents, within one
page or across pages, resolve to the id of the last such document in
page/response order (later dict insertions overwrite earlier ones). -/
theorem listing_duplicate_name_last_wins (api : ListRequest → Page)
    (docs1 docs2 : List (String × String))
    (h1 : api ⟨100, none⟩ = ⟨200, docs1, true, some ("c1")⟩)
    (h2 : api ⟨100, some ("c1")⟩ = ⟨200, docs2, false, none⟩) :
    ∃ reqs, get_elevenlabs_docs api 2 = some (insertAll (insertAll [] docs1) docs2, reqs)
      ∧ ∀ name, elLookup (insertAll (insertAll [] docs1) docs2) name =
          lastBind (docs1 ++ docs2) name := by
  have e1 : api (mkReq none) = ⟨200, docs1, true, some ("c1")⟩ := h1
  have hc1 : mkReq (some ("c1")) = ⟨100, some ("c1")⟩ := by decide
  have e2 : api (mkReq (some ("c1"))) = ⟨200, docs2, false, none⟩ := by
    rw [hc1]
    exact h2
  refine ⟨[mkReq none, mkReq (some ("c1"))], ?_, ?_⟩
  · have t1 : getDocsAux api 2 none [] [] =
        getDocsAux api 1 (some ("c1")) (insertAll [] docs1) [mkReq none] := by
      have t := getDocsAux_step_more api 1 none [] [] (by rw [e1]) (by rw [e1])
      rw [e1] at t
      simpa using t
    have t2 : getDocsAux api 1 (some ("c1")) (insertAll [] docs1) [mkReq none] =
        some (insertAll (insertAll [] docs1) docs2, [mkReq none, mkReq (some ("c1"))]) := by
      have t := getDocsAux_step_done api 0 (some ("c1")) (insertAll [] docs1) [mkReq none]
        (by rw [e2]) (by rw [e2])
      rw [e2] at t
      simpa using t
    rw [show get_elevenlabs_docs api 2 = getDocsAux api 2 none [] [] from rfl, t1, t2]
  · intro name
    have hcomb : insertAll (insertAll [] docs1) docs2 = insertAll [] (docs1 ++ docs2) := by
      rw [insertAll, insertAll, insertAll, List.foldl_append]
    rw [hcomb, elLookup_insertAll]
    cases hl : lastBind (docs1 ++ docs2) name <;> simp [elLookup]

/-- Concrete duplicate-name listing for C9: `a` appears twice on page one
and once on page two; the final mapping binds `a` to the last id `3`. -/
theorem listing_duplicate_name_last_wins_witness :
    ∃ reqs,
      get_elevenlabs_docs
          (fun r =>
            if r.cursor = none then ⟨200, [("a", "1"), ("a", "2")], true, some ("c1")⟩
            else ⟨200, [("a", "3")], false, none⟩)
          2 =
        some (insertAll (insertAll [] [("a", "1"), ("a", "2")]) [("a", "3")], reqs)
      ∧ ∀ name, elLookup (insertAll (insertAll [] [("a", "1"), ("a", "2")]) [("a", "3")]) name =
          lastBind ([("a", "1"), ("a", "2")] ++ [("a", "3")]) name := by
  exact listing_duplicate_name_last_wins
    (fun r =>
      if r.cursor = none then ⟨200, [("a", "1"), ("a", "2")], true, some ("c1")⟩
      else ⟨200, [("a", "3")], false, none⟩)
    [("a", "1"), ("a", "2")] [("a", "3")] (by decide) (by decide)

theorem getDocsAux_none_of_no_stop (api : ListRequest → Page) :
    ∀ (fuel : Nat) (c : Option String) (acc : List (String × String)) (reqs : List ListRequest),
      (∀ n : Nat, ¬stopsAt api ((nextCursor api)^[n] c)) →
      getDocsAux api fuel c acc reqs = none := by
  intro fuel
  induction fuel with
  | zero =>
    intro c acc reqs _
    rfl
  | succ n ih =>
    intro c acc reqs h
    have h0 := h 0
    rw [Function.iterate_zero_apply, stopsAt] at h0
    push_neg at h0
    obtain ⟨hst, hm⟩ := h0
    have hmt : (api (mkReq c)).has_more = true := by
      cases hx : (api (mkReq c)).has_more
      · exact absurd hx hm
      · rfl
    rw [getDocsAux_step_more api n c acc reqs hst hmt]
    apply ih
    intro m
    have hs := h (m + 1)
    rw [Function.iterate_succ_apply] at hs
    exact hs

theorem getDocsAux_some_of_stop (api : ListRequest → Page) {c : Option String}
    (h : stopsAt api c) (fuel : Nat) (acc : List (String × String)) (reqs : List ListRequest) :
    ∃ r, getDocsAux api (fuel + 1) c acc reqs = some r := by
  rcases h with hst | hm
  · exact ⟨_, getDocsAux_stop_non200 api fuel c acc reqs hst⟩
  · by_cases hst2 : (api (mkReq c)).status = 200
    · exact ⟨_, getDocsAux_step_done api fuel c acc reqs hst2 hm⟩
    · exact ⟨_, getDocsAux_stop_non200 api fuel c acc reqs hst2⟩

theorem getDocsAux_some_of_stops_iterate (api : ListRequest → Page) :
    ∀ (n : Nat) (c : Option String), stopsAt api ((nextCursor api)^[n] c) →
      ∀ acc reqs, ∃ r, getDocsAux api (n + 1) c acc reqs = some r := by
  intro n
  induction n with
  | zero =>
    intro c h acc reqs
    rw [Function.iterate_zero_apply] at h
    exact getDocsAux_some_of_stop api h 0 acc reqs
  | succ m ih =>
    intro c h acc reqs
    by_cases hs : stopsAt api c
    · exact getDocsAux_some_of_stop api hs (m + 1) acc reqs
    · rw [stopsAt] at hs
      push_neg at hs
      obtain ⟨hst, hm⟩ := hs
      have hmt : (api (mkReq c)).has_more = true := by
        cases hx : (api (mkReq c)).has_more
        · exact absurd hx hm
        · rfl
      rw [getDocsAux_step_more api (m + 1) c acc reqs hst hmt]
      apply ih
      show stopsAt api ((nextCursor api)^[m] (nextCursor api c))
      rw [← Function.iterate_succ_apply]
      exact h

/-- Claim C10: the listing loop terminates exactly when the cursor-following
page sequence eventually answers with a non-200 status or `has_more` false;
and when the cursorless first page answers 200 with `has_more` true but no
`next_cursor`, each iteration re-issues the cursorless first-page request
and the loop never terminates (the fuel-indexed model returns `none` for
every fuel). -/
theorem listing_termination (api : ListRequest → Page) :
    ((∃ fuel r, get_elevenlabs_docs api fuel = some r) ↔
      ∃ n, stopsAt api ((nextCursor api)^[n] none))
    ∧ ((api (mkReq none)).status = 200 → (api (mkReq none)).has_more = true →
        (api (mkReq none)).next_cursor = none →
        (∀ fuel acc reqs, getDocsAux api (fuel + 1) none acc reqs =
            getDocsAux api fuel none (insertAll acc (api (mkReq none)).documents)
              (reqs ++ [mkReq none]))
        ∧ ∀ fuel, get_elevenlabs_docs api fuel = none) := by
  constructor
  · constructor
    · rintro ⟨fuel, r, hr⟩
      by_contra hno
      push_neg at hno
      rw [get_elevenlabs_docs, getDocsAux_none_of_no_stop api fuel none [] [] hno] at hr
      cases hr
    · rintro ⟨n, hn⟩
      obtain ⟨r, hr⟩ := getDocsAux_some_of_stops_iterate api n none hn [] []
      exact ⟨n + 1, r, hr⟩
  · intro h200 hmore hnc
    have hstep : ∀ fuel acc reqs, getDocsAux api (fuel + 1) none acc reqs =
        getDocsAux api fuel none (insertAll acc (api (mkReq none)).documents)
          (reqs ++ [mkReq none]) := by
      intro fuel acc reqs
      have t := getDocsAux_step_more api fuel none acc reqs h200 hmore
      rw [hnc] at t
      exact t
    refine ⟨hstep, ?_⟩
    intro fuel
    rw [get_elevenlabs_docs]
    apply getDocsAux_none_of_no_stop
    intro n
    have hfixone : nextCursor api none = none := by
      rw [nextCursor, hnc]
    have hfix : (nextCursor api)^[n] (none : Option String) = none := by
      induction n with
      | zero => rfl
      | succ m ihm =>
        rw [Function.iterate_succ_apply, hfixone]
        exact ihm
    rw [hfix, stopsAt]
    intro hcon
    rcases hcon with hh | hh
    · exact hh h200
    · rw [hmore] at hh
      cases hh

/-- Concrete non-terminating listing for C10: every page answers 200 with
`has_more` true and no `next_cursor`; the loop returns `none` at fuel 7. -/
theorem listing_termination_witness :
    get_elevenlabs_docs (fun _ => ⟨200, [("a", "1")], true, none⟩) 7 = none := by
  have h := (listing_termination (fun _ => (⟨200, [("a", "1")], true, none⟩ : Page))).2
    rfl rfl rfl
  exact h.2 7

/-- Claim C8: the upload content type is chosen by the fixed extension table
(covering exactly `.docx`, `.pdf`, `.txt`, `.epub`, `.html`, `.md`, applied
to the extension of the lowercased name), then by the generic
extension-based guess, and finally by the `text/plain` default. -/
theorem content_type_chain (guess : String → Option String) (blob_name : String) :
    (∀ ct, elLookup ext_mapping (splitextExt (pyLower blob_name)) = some ct →
      upload_content_type guess blob_name = ct)
    ∧ (elLookup ext_mapping (splitextExt (pyLower blob_name)) = none →
        (∀ ct, guess blob_name = some ct → upload_content_type guess blob_name = ct)
        ∧ (guess blob_name = none → upload_content_type guess blob_name = "text/plain"))
    ∧ ext_mapping.map Prod.fst = [".docx", ".pdf", ".txt", ".epub", ".html", ".md"] := by
  refine ⟨?_, ?_, rfl⟩
  · intro ct h
    simp [upload_content_type, h]
  · intro h
    constructor
    · intro ct hg
      simp [upload_content_type, h, hg]
    · intro hg
      simp [upload_content_type, h, hg]

/-- Concrete content types for C8: a table hit (case-insensitive `.pdf`),
a guess hit on an unknown extension, and the `text/plain` default. -/
theorem content_type_chain_witness :
    upload_content_type (fun _ => none) ("A.PDF") = "application/pdf"
    ∧ upload_content_type (fun _ => some ("application/x-foo")) ("notes.xyz") = "application/x-foo"
    ∧ upload_content_type (fun _ => none) ("notes.xyz") = "text/plain" := by
  refine ⟨?_, ?_, ?_⟩
  · exact (content_type_chain (fun _ => none) ("A.PDF")).1 _ (by decide)
  · exact ((content_type_chain (fun _ => some ("application/x-foo")) ("notes.xyz")).2.1
      (by decide)).1 _ rfl
  · exact ((content_type_chain (fun _ => none) ("notes.xyz")).2.1 (by decide)).2 rfl

end GXB
